import Mathlib

/-!
Verification development for the pyfi valuation core (`src/bond.cpp`,
`src/option.cpp`, `src/option_greeks.cpp`).

The bond-side functions operate on machine floating point numbers with only
field operations and integer-exponent powers, so they are embedded over `ℚ`
(exact arithmetic, decidable equalities).  The option-side functions use
`exp`, `log`, `sqrt` and the normal CDF, so they are embedded over `ℝ`.
C++ `int` parameters are embedded as `ℤ` (or `ℕ` for the step count of the
lattice, which the claims restrict to be at least 1).  Functions that throw
`std::invalid_argument` are embedded as `Except String` values whose error
strings are the source's exception messages.
-/

namespace pyfi

/-- Error-free discounted sum of the explicit-schedule branch of
`present_value`: the source computes `Σ cash_flows[k] * (1+r)^-(k+1)`.
`opr` is `1 + r` and `k` is the running index. -/
def discountedSum (opr : ℚ) : List ℚ → ℤ → ℚ
  | [], _ => 0
  | c :: rest, k => c * opr ^ (-(k + 1)) + discountedSum opr rest (k + 1)

/-- Embedding of `pyfi::bond::present_value` (src/src/bond.cpp, lines 16-54).
The per-period rate is `annual_yield / m`; `same_cashflows` selects the
closed-form annuity branch.  Real exponentiation `pow(1+r, -n)` with an
integer exponent is embedded as `zpow`. -/
def present_value (cash_flows : List ℚ) (annual_yield par_value : ℚ)
    (years compounding_annually : ℤ) (same_cashflows : Bool) : Except String ℚ :=
  if years < 0 ∨ compounding_annually ≤ 0 then .error "bad tenor or m"
  else
    let n : ℤ := years * compounding_annually
    let r : ℚ := annual_yield / (compounding_annually : ℚ)
    if r ≤ -1 then .error "rate <= -100%/period"
    else if same_cashflows then
      if n ≤ 0 ∨ cash_flows = [] then .ok 0
      else
        let c := cash_flows.headD 0
        let dfN := (1 + r) ^ (-n)
        let annuity := if r = 0 then (n : ℚ) else (1 - dfN) / r
        .ok (c * annuity + par_value * dfN)
    else
      let pv := discountedSum (1 + r) cash_flows 0
      if 0 < n ∧ (cash_flows.length : ℤ) < n then
        .ok (pv + par_value * (1 + r) ^ (-n))
      else .ok pv

/-- Embedding of `pyfi::bond::build_bond_cashflows` (src/src/bond.cpp, lines
56-68): push the per-period coupon `par * coupon_rate / m` for the first
`n - 1` periods, then the coupon plus the principal. -/
def build_bond_cashflows (par_value coupon_rate : ℚ) (years m : ℤ) : List ℚ :=
  if m ≤ 0 ∨ years ≤ 0 then []
  else
    let n := (years * m).toNat
    let c := par_value * (coupon_rate / (m : ℚ))
    List.replicate (n - 1) c ++ [c + par_value]

/-- Objective present value used inside `internal_rate_return` (src/src/bond.cpp,
lines 95-107): the discount factor is accumulated iteratively,
`df := df * (1/(1+rp)); v += cf[k] * df`. -/
def irrObjectiveGo (inv : ℚ) : List ℚ → ℚ → ℚ
  | [], _ => 0
  | c :: rest, df => c * (df * inv) + irrObjectiveGo inv rest (df * inv)

/-- Present value of a schedule at per-period rate `rp`, exactly the loop body
of the solver objective `f` of `internal_rate_return` (without the `- price`). -/
def irrObjectivePV (cf : List ℚ) (rp : ℚ) : ℚ :=
  irrObjectiveGo (1 / (1 + rp)) cf 1

/-- Effective compounding frequency of `internal_rate_return`
(src/src/bond.cpp, line 83): `m = compounding_annually > 0 ? compounding_annually : 1`. -/
def irrEffectiveM (compounding_annually : ℤ) : ℤ :=
  if 0 < compounding_annually then compounding_annually else 1

/-- Effective schedule of `internal_rate_return` (src/src/bond.cpp, line 85):
an empty `cash_flows` is replaced by a synthesized coupon schedule. -/
def irrEffectiveCf (cash_flows : List ℚ) (interest_rate par_value : ℚ)
    (years compounding_annually : ℤ) : List ℚ :=
  if cash_flows = [] then
    build_bond_cashflows par_value interest_rate years (irrEffectiveM compounding_annually)
  else cash_flows

/-- Embedding of the entry phase of `pyfi::bond::internal_rate_return`
(src/src/bond.cpp, lines 70-93): clamp a non-positive `m` to 1, synthesize
the schedule when `cash_flows` is empty, then validate.  Returns the
effective schedule and the effective `m` handed to the solver. -/
def internal_rate_return_validate (cash_flows : List ℚ) (price interest_rate par_value : ℚ)
    (years compounding_annually : ℤ) : Except String (List ℚ × ℤ) :=
  if irrEffectiveCf cash_flows interest_rate par_value years compounding_annually = [] then
    .error "No cash flows"
  else if ¬ (0 < price) then .error "Price must be > 0"
  else .ok (irrEffectiveCf cash_flows interest_rate par_value years compounding_annually,
    irrEffectiveM compounding_annually)

/-- Ideal-solver model of `pyfi::bond::internal_rate_return` on an explicit
schedule: the boost `bracket_and_solve_root` / `toms748_solve` calls (an
external library, tolerance a few ulps) are abstracted as returning an exact
root `rp` of the objective `f(rp) = PV(rp) - price`; the function then
annualizes it as `(1 + rp)^m - 1` (src/src/bond.cpp, lines 108-127). -/
def IsInternalRateReturn (cf : List ℚ) (price : ℚ) (m : ℤ) (y : ℚ) : Prop :=
  ∃ rp : ℚ, -1 < rp ∧ irrObjectivePV cf rp = price ∧ y = (1 + rp) ^ m - 1

/-- Loop of `pyfi::bond::price_from_yield` (src/src/bond.cpp, lines 130-140):
`disc := disc * (1 + r); pv += cash_flows[i] / disc`. -/
def priceFromYieldGo (opr : ℚ) : List ℚ → ℚ → ℚ
  | [], _ => 0
  | c :: rest, disc => c / (disc * opr) + priceFromYieldGo opr rest (disc * opr)

/-- Embedding of `pyfi::bond::price_from_yield`: per-period rate `yield / m`,
iteratively accumulated discount factor. -/
def price_from_yield (cash_flows : List ℚ) (yield : ℚ) (m : ℤ) : ℚ :=
  priceFromYieldGo (1 + yield / (m : ℚ)) cash_flows 1

/-- Modelled from the spec: `zero_coupon_price_cexpr` is referenced by
`zero_coupon_price` (src/src/bond.cpp, line 184) and by the tests, but its
definition lives in a `constexpr` header that is not among the sources.  The
spec gives the zero-coupon formula `par / (1 + yield/m)^(periods)`; at the
call site the number of years is an `int`, so the exponent is the integer
`years * m`. -/
def zero_coupon_price_cexpr (par_value annual_yield : ℚ) (years m : ℤ) : ℚ :=
  par_value / (1 + annual_yield / (m : ℚ)) ^ (years * m)

/-- Embedding of `pyfi::bond::zero_coupon_price` (src/src/bond.cpp, lines
178-185): after validation it truncates `years_to_maturity` with
`static_cast<int>` (truncation toward zero, which on the validated domain
`years_to_maturity ≥ 0` is the floor) and prices with the integer-year
`zero_coupon_price_cexpr`. -/
def zero_coupon_price (par_value annual_yield years_to_maturity : ℚ) (m : ℤ) :
    Except String ℚ :=
  if ¬ (0 < par_value) then .error "par_value must be > 0"
  else if ¬ (0 ≤ years_to_maturity) then .error "years_to_maturity must be >= 0"
  else if ¬ (0 < m) then .error "m must be > 0"
  else .ok (zero_coupon_price_cexpr par_value annual_yield ⌊years_to_maturity⌋ m)

/-- Standard normal cumulative distribution function, the mathematical meaning
of `boost::math::cdf(normal(0,1), x)` used by `black_scholes_call` and
`black_scholes_put` (src/src/option.cpp, lines 12-15). -/
noncomputable def Phi (x : ℝ) : ℝ :=
  (∫ t in Set.Iic x, Real.exp (-(t ^ 2 / 2))) / Real.sqrt (2 * Real.pi)

/-- Embedding of `pyfi::option::black_scholes_x` (src/src/option.cpp, lines
17-27): the Black-Scholes `d1` term. -/
noncomputable def black_scholes_x (stock_price strike_price volatility risk_free_rate time : ℝ) : ℝ :=
  (Real.log (stock_price / strike_price) +
      (risk_free_rate + volatility ^ 2 / 2) * time) /
    (volatility * Real.sqrt time)

/-- Embedding of `pyfi::option::black_scholes_call` (src/src/option.cpp, lines
29-43). -/
noncomputable def black_scholes_call (stock_price strike_price volatility risk_free_rate time : ℝ) :
    Except String ℝ :=
  if volatility < 1e-9 ∨ time < 1e-9 then .error "Time or volatility cannot be zero"
  else
    let x := black_scholes_x stock_price strike_price volatility risk_free_rate time
    let s_phi := stock_price * Phi x
    let k_phi := strike_price * Real.exp (-(risk_free_rate * time)) *
      Phi (x - volatility * Real.sqrt time)
    .ok (s_phi - k_phi)

/-- Embedding of `pyfi::option::black_scholes_put` (src/src/option.cpp, lines
45-62), which recomputes `d1`/`d2` with its own (algebraically identical)
expressions. -/
noncomputable def black_scholes_put (stock_price strike_price volatility risk_free_rate time : ℝ) :
    Except String ℝ :=
  if volatility < 1e-9 ∨ time < 1e-9 then .error "Time or volatility cannot be zero"
  else
    let sqrtT := Real.sqrt time
    let vv := volatility * volatility
    let d1 := (Real.log (stock_price / strike_price) + (risk_free_rate + 0.5 * vv) * time) /
      (volatility * sqrtT)
    let d2 := d1 - volatility * sqrtT
    let pvK := strike_price * Real.exp (-(risk_free_rate * time))
    .ok (pvK * Phi (-d2) - stock_price * Phi (-d1))

/-- Embedding of `pyfi::option::custom_normal` (src/src/option_greeks.cpp,
lines 10-20), kept bug-for-bug faithful to the compiled C++ semantics:
`std::pow(M_PI * 2, 1 / 2)` divides the ints 1 and 2 first, so the exponent
is 0 and the factor is 1; `std::pow(-x, 2)` is `x^2`, so the exponential
argument is `+x^2/2`. -/
noncomputable def custom_normal (stock_price strike_price volatility risk_free_rate time : ℝ) : ℝ :=
  let one_pi := 1 / (Real.pi * 2) ^ ((1 : ℤ) / 2)
  let x := black_scholes_x stock_price strike_price volatility risk_free_rate time
  one_pi * Real.exp ((-x) ^ 2 / 2)

/-- Embedding of `pyfi::option::bs_call_delta` (src/src/option_greeks.cpp,
lines 28-37). -/
noncomputable def bs_call_delta (stock_price strike_price volatility risk_free_rate dividend_yield time : ℝ) : ℝ :=
  Real.exp (-(time * dividend_yield)) *
    custom_normal stock_price strike_price volatility risk_free_rate time

/-- Embedding of `pyfi::option::bs_put_delta` (src/src/option_greeks.cpp,
lines 39-48). -/
noncomputable def bs_put_delta (stock_price strike_price volatility risk_free_rate dividend_yield time : ℝ) : ℝ :=
  Real.exp (-(dividend_yield * time)) *
    (custom_normal stock_price strike_price volatility risk_free_rate time - 1)

/-- Elementwise action of `pyfi::option::call_payoff` (src/src/option.cpp):
`max(spot - strike, 0)`.  The C++ `payoff_func` mutates a vector elementwise;
payoff rules are embedded by their elementwise action on a spot price, which
is also how `binomial_us_option` evaluates them on single-element vectors. -/
def call_payoff (strike_price spot : ℝ) : ℝ := max (spot - strike_price) 0

/-- Elementwise action of `pyfi::option::put_payoff`: `max(strike - spot, 0)`. -/
def put_payoff (strike_price spot : ℝ) : ℝ := max (strike_price - spot) 0

/-- Terminal-layer loop of `pyfi::option::binomial_tree_setup` (src/src/option.cpp,
lines 140-163): `options[j] = S * up * dn` with `up := up * u` and
`dn := dn / d` after each node.  The first argument counts the remaining
nodes. -/
noncomputable def binomial_terminal (stock_price u d : ℝ) : ℕ → ℝ → ℝ → List ℝ
  | 0, _, _ => []
  | n + 1, up, dn =>
      stock_price * up * dn :: binomial_terminal stock_price u d n (up * u) (dn / d)

/-- Embedding of `pyfi::option::binomial_tree_setup`: build the `steps + 1`
terminal spot prices starting from `up = 1`, `dn = d^steps`, then apply the
payoff rule to the vector. -/
noncomputable def binomial_tree_setup (stock_price strike_price volatility : ℝ) (steps : ℕ)
    (time : ℝ) (payoff : ℝ → ℝ → ℝ) : List ℝ :=
  let dt := time / steps
  let u := Real.exp (volatility * Real.sqrt dt)
  let d := 1 / u
  (binomial_terminal stock_price u d (steps + 1) 1 (d ^ steps)).map (payoff strike_price)

/-- One backward-induction pass of `binomial_eu_option` (src/src/option.cpp,
lines 181-185): the inner loop `j = 0 .. i-1` reads `options[j]` and the
not-yet-overwritten `options[j+1]`, so a pass maps the current prefix
`[v 0, …, v i]` to `[f (v 0) (v 1), …, f (v (i-1)) (v i)]`; entries past the
prefix are never read again and are dropped. -/
noncomputable def backstep (p disc : ℝ) : List ℝ → List ℝ
  | a :: b :: rest => disc * (p * b + (1 - p) * a) :: backstep p disc (b :: rest)
  | _ => []

/-- Embedding of `pyfi::option::binomial_eu_option` (src/src/option.cpp, lines
165-187): terminal setup, then `steps` backward passes, then the root value
`options[0]`. -/
noncomputable def binomial_eu_option (stock_price strike_price volatility risk_free_rate : ℝ)
    (steps : ℕ) (time : ℝ) (payoff : ℝ → ℝ → ℝ) : ℝ :=
  let dt := time / steps
  let u := Real.exp (volatility * Real.sqrt dt)
  let d := 1 / u
  let fair_prob := (Real.exp (risk_free_rate * dt) - d) / (u - d)
  let discr := Real.exp (-(risk_free_rate * dt))
  ((backstep fair_prob discr)^[steps]
      (binomial_tree_setup stock_price strike_price volatility steps time payoff)).headD 0

/-- One backward-induction pass of `binomial_us_option` at tree level `i`
(src/src/option.cpp, lines 212-221): node `j` takes the maximum of the
continuation value and the immediate-exercise value of the node spot price
`S * u^j * d^(i-j)`.  `j` is the running node index. -/
noncomputable def uslevel (stock_price u d p disc strike_price : ℝ) (payoff : ℝ → ℝ → ℝ)
    (i : ℕ) : ℕ → List ℝ → List ℝ
  | j, a :: b :: rest =>
      max (disc * (p * b + (1 - p) * a))
          (payoff strike_price (stock_price * u ^ j * d ^ (i - j))) ::
        uslevel stock_price u d p disc strike_price payoff i (j + 1) (b :: rest)
  | _, _ => []

/-- Outer loop of `binomial_us_option`: levels `i = steps-1` down to `0`.
`usback n` applies the passes for levels `n-1, …, 0` in that order. -/
noncomputable def usback (stock_price u d p disc strike_price : ℝ) (payoff : ℝ → ℝ → ℝ) :
    ℕ → List ℝ → List ℝ
  | 0, l => l
  | i + 1, l =>
      usback stock_price u d p disc strike_price payoff i
        (uslevel stock_price u d p disc strike_price payoff i 0 l)

/-- Embedding of `pyfi::option::binomial_us_option` (src/src/option.cpp, lines
195-224). -/
noncomputable def binomial_us_option (stock_price strike_price volatility risk_free_rate : ℝ)
    (steps : ℕ) (time : ℝ) (payoff : ℝ → ℝ → ℝ) : ℝ :=
  let dt := time / steps
  let u := Real.exp (volatility * Real.sqrt dt)
  let d := 1 / u
  let fair_prob := (Real.exp (risk_free_rate * dt) - d) / (u - d)
  let discr := Real.exp (-(risk_free_rate * dt))
  (usback stock_price u d fair_prob discr strike_price payoff steps
      (binomial_tree_setup stock_price strike_price volatility steps time payoff)).headD 0

/-- Backward-induction step on node-value functions, as the spec describes it:
`value[j] = disc * (p * value[j+1] + (1-p) * value[j])`. -/
noncomputable def lattice_step (p disc : ℝ) (v : ℕ → ℝ) : ℕ → ℝ :=
  fun j => disc * (p * v (j + 1) + (1 - p) * v j)

/-- Specification-style European lattice price: terminal node `j` carries the
payoff of `S * u^j * d^(steps-j)`, the backward recurrence is applied `steps`
times, and the result is the root node. -/
noncomputable def binomial_eu_spec (stock_price strike_price volatility risk_free_rate : ℝ)
    (steps : ℕ) (time : ℝ) (payoff : ℝ → ℝ → ℝ) : ℝ :=
  let dt := time / steps
  let u := Real.exp (volatility * Real.sqrt dt)
  let d := 1 / u
  let p := (Real.exp (risk_free_rate * dt) - d) / (u - d)
  let disc := Real.exp (-(risk_free_rate * dt))
  ((lattice_step p disc)^[steps]
      (fun j => payoff strike_price (stock_price * u ^ j * d ^ (steps - j)))) 0

/-! ### Claim theorems: bond side -/

/-- C9: for every `par`, `coupon_rate`, and integers `years > 0` and `m > 0`,
`build_bond_cashflows` returns a schedule of length exactly `years * m` in
which every element equals `par * coupon_rate / m` except the last, which
equals `par * coupon_rate / m + par`; and for `m ≤ 0` or `years ≤ 0` it
returns the empty schedule rather than raising an error. -/
theorem build_bond_cashflows_spec (par c : ℚ) (years m : ℤ) :
    (0 < years → 0 < m →
      ((build_bond_cashflows par c years m).length : ℤ) = years * m ∧
      (∀ x ∈ (build_bond_cashflows par c years m).dropLast, x = par * (c / (m : ℚ))) ∧
      (build_bond_cashflows par c years m).getLast? = some (par * (c / (m : ℚ)) + par)) ∧
    (m ≤ 0 ∨ years ≤ 0 → build_bond_cashflows par c years m = []) := by
  constructor
  · intro hy hm
    have hcond : ¬ (m ≤ 0 ∨ years ≤ 0) := by push_neg; exact ⟨hm, hy⟩
    have hn : 0 < years * m := mul_pos hy hm
    have hn1 : 1 ≤ (years * m).toNat := by omega
    unfold build_bond_cashflows
    rw [if_neg hcond]
    refine ⟨?_, ?_, ?_⟩
    · simp only [List.length_append, List.length_replicate, List.length_cons,
        List.length_nil]
      omega
    · intro x hx
      rw [List.dropLast_concat] at hx
      exact List.eq_of_mem_replicate hx
    · exact List.getLast?_concat _
  · intro h
    unfold build_bond_cashflows
    rw [if_pos h]

/-- Witness for C9 at `par = 100`, `coupon_rate = 1/20`, `years = 3`, `m = 2`,
with the positivity hypotheses discharged. -/
theorem build_bond_cashflows_spec_witness :
    ((build_bond_cashflows 100 (1/20) 3 2).length : ℤ) = 3 * 2 ∧
    (build_bond_cashflows 100 (1/20) 3 2).getLast? = some (100 * ((1/20) / ((2 : ℤ) : ℚ)) + 100) :=
  ⟨((build_bond_cashflows_spec 100 (1/20) 3 2).1 (by norm_num) (by norm_num)).1,
   ((build_bond_cashflows_spec 100 (1/20) 3 2).1 (by norm_num) (by norm_num)).2.2⟩

/-- C7: `present_value` raises InvalidArgument if and only if `years < 0`, or
`compounding_annually ≤ 0`, or the per-period rate is at most `-1`; for all
other inputs it returns a value. -/
theorem present_value_error_iff (cf : List ℚ) (y par : ℚ) (years m : ℤ) (same : Bool) :
    (∃ e, present_value cf y par years m same = .error e) ↔
      years < 0 ∨ m ≤ 0 ∨ y / (m : ℚ) ≤ -1 := by
  unfold present_value
  by_cases h1 : years < 0 ∨ m ≤ 0
  · rw [if_pos h1]
    simp only [true_iff, Except.error.injEq, exists_eq']
    tauto
  · rw [if_neg h1]
    by_cases h2 : y / (m : ℚ) ≤ -1
    · simp only [if_pos h2, Except.error.injEq, exists_eq', true_iff]
      tauto
    · rw [if_neg h2]
      push_neg at h1 h2
      constructor
      · rintro ⟨e, he⟩
        split_ifs at he
      · intro h
        rcases h with h | h | h
        · exact absurd h (not_lt.mpr h1.1)
        · exact absurd h (not_le.mpr h1.2)
        · exact absurd h (not_le.mpr h2)

/-- Level-annuity pricing at coupon rate equal to the yield returns par
exactly, for any positive tenor and frequency. -/
theorem present_value_level_par (par y : ℚ) (years m : ℤ) (hy : 0 < years) (hm : 0 < m)
    (hr : -1 < y / (m : ℚ)) :
    present_value [par * (y / (m : ℚ))] y par years m true = .ok par := by
  have h1 : ¬ (years < 0 ∨ m ≤ 0) := by push_neg; exact ⟨by omega, hm⟩
  have h2 : ¬ (y / (m : ℚ) ≤ -1) := not_le.mpr hr
  have hn : ¬ (years * m ≤ 0 ∨ ([par * (y / (m : ℚ))] : List ℚ) = []) := by
    push_neg
    exact ⟨mul_pos hy hm, by simp⟩
  unfold present_value
  rw [if_neg h1, if_neg h2, if_pos (show (true : Bool) = true from rfl), if_neg hn]
  simp only [List.headD_cons]
  set r := y / (m : ℚ) with hrdef
  set dfN := (1 + r) ^ (-(years * m)) with hdfN
  by_cases hr0 : r = 0
  · rw [if_pos hr0]
    have h : dfN = 1 := by rw [hdfN, hr0]; norm_num
    rw [h, hr0]
    congr 1
    ring
  · rw [if_neg hr0]
    congr 1
    field_simp
    ring

/-- C8: for every `m ∈ {1,2,4,12}` and `years ∈ {1,5,30}`, every `par > 0`
and yield with per-period rate above `-1`, pricing the level schedule whose
single coupon entry is `par * yield / m` with `present_value` (level flag
set) returns exactly `par` — in particular within `1e-10` — including the
zero-rate branch. -/
theorem present_value_par_when_coupon_eq_yield (par y : ℚ) (years m : ℤ)
    (hm : m ∈ ([1, 2, 4, 12] : List ℤ)) (hy : years ∈ ([1, 5, 30] : List ℤ))
    (_hpar : 0 < par) (hr : -1 < y / (m : ℚ)) :
    present_value [par * (y / (m : ℚ))] y par years m true = .ok par := by
  have hm0 : 0 < m := by
    simp only [List.mem_cons, List.not_mem_nil, or_false] at hm
    rcases hm with rfl | rfl | rfl | rfl <;> norm_num
  have hy0 : 0 < years := by
    simp only [List.mem_cons, List.not_mem_nil, or_false] at hy
    rcases hy with rfl | rfl | rfl <;> norm_num
  exact present_value_level_par par y years m hy0 hm0 hr

/-- Witness for C8 at `par = 100`, `y = 1/10`, `years = 5`, `m = 2`. -/
theorem present_value_par_when_coupon_eq_yield_witness :
    present_value [100 * ((1 : ℚ)/10 / ((2 : ℤ) : ℚ))] (1/10) 100 5 2 true = .ok 100 :=
  present_value_par_when_coupon_eq_yield 100 (1/10) 5 2 (by decide) (by decide)
    (by norm_num) (by norm_num)

/-- C2 (failing input): at `par = 100`, `yield = 2`, `years_to_maturity = 3/2`,
`m = 2` the code truncates the maturity to one whole year before pricing and
returns `100 / (1+1)^2 = 25`, whereas the documented fractional-period
formula `par / (1+yield/m)^(T*m)` gives `100 / 2^3 = 12.5`. -/
theorem zero_coupon_price_truncates :
    zero_coupon_price 100 2 (3/2) 2 = .ok 25 ∧
    (100 : ℝ) / (1 + 2 / 2) ^ ((3 / 2 : ℝ) * 2) ≠ 25 := by
  constructor
  · have hfl : ⌊(3/2 : ℚ)⌋ = 1 := by
      rw [Int.floor_eq_iff]
      norm_num
    norm_num [zero_coupon_price, zero_coupon_price_cexpr, hfl]
  · have h : ((3 / 2 : ℝ) * 2) = ((3 : ℕ) : ℝ) := by norm_num
    rw [h, Real.rpow_natCast]
    norm_num

/-- Schedules synthesized for a positive tenor and frequency are nonempty. -/
theorem build_bond_cashflows_ne_nil (par c : ℚ) (years m : ℤ) (hy : 0 < years) (hm : 0 < m) :
    build_bond_cashflows par c years m ≠ [] := by
  unfold build_bond_cashflows
  rw [if_neg (by push_neg; exact ⟨hm, hy⟩)]
  simp

/-- C6 counterexample: with `compounding_annually = 0`, a nonempty schedule
and a positive price, the entry phase of `internal_rate_return` raises
nothing: the non-positive `m` is silently replaced by the default `1`. -/
theorem internal_rate_return_m_nonpos_no_throw :
    internal_rate_return_validate [100] 50 (1/20) 100 1 0 = .ok ([100], 1) := by
  norm_num [internal_rate_return_validate, irrEffectiveCf, irrEffectiveM]

/-- C6 amended: `internal_rate_return` silently replaces a non-positive
`compounding_annually` by `1` instead of raising — the call behaves exactly
as with `m = 1` — and it raises InvalidArgument iff `price ≤ 0` or the
schedule is empty and unsynthesizable (`years ≤ 0`). -/
theorem internal_rate_return_validate_m_nonpos (cf : List ℚ) (price ir par : ℚ)
    (years m : ℤ) (hm : m ≤ 0) :
    internal_rate_return_validate cf price ir par years m =
      internal_rate_return_validate cf price ir par years 1 ∧
    ((∃ e, internal_rate_return_validate cf price ir par years m = .error e) ↔
      (price ≤ 0 ∨ (cf = [] ∧ years ≤ 0))) := by
  have hM1 : irrEffectiveM 1 = 1 := by
    unfold irrEffectiveM
    norm_num
  have hM : irrEffectiveM m = irrEffectiveM 1 := by
    unfold irrEffectiveM
    rw [if_neg (not_lt.mpr hm), if_pos (show (0:ℤ) < 1 by norm_num)]
  have hCf : irrEffectiveCf cf ir par years m = irrEffectiveCf cf ir par years 1 := by
    unfold irrEffectiveCf
    rw [hM]
  have hsame : internal_rate_return_validate cf price ir par years m =
      internal_rate_return_validate cf price ir par years 1 := by
    unfold internal_rate_return_validate
    rw [hCf, hM]
  refine ⟨hsame, ?_⟩
  rw [hsame]
  unfold internal_rate_return_validate
  by_cases hA : irrEffectiveCf cf ir par years 1 = []
  · rw [if_pos hA]
    have hcf : cf = [] := by
      by_contra hc
      unfold irrEffectiveCf at hA
      rw [if_neg hc] at hA
      exact hc hA
    have hyr : years ≤ 0 := by
      by_contra hyy
      push_neg at hyy
      unfold irrEffectiveCf at hA
      rw [if_pos hcf, hM1] at hA
      exact build_bond_cashflows_ne_nil par ir years 1 hyy (by norm_num) hA
    simp only [Except.error.injEq, exists_eq', true_iff]
    exact Or.inr ⟨hcf, hyr⟩
  · rw [if_neg hA]
    by_cases hp : 0 < price
    · rw [if_neg (not_not_intro hp)]
      constructor
      · rintro ⟨e, he⟩
        exact absurd he (by simp)
      · rintro (h | ⟨hcf, hyr⟩)
        · exact absurd hp (not_lt.mpr h)
        · exfalso
          apply hA
          unfold irrEffectiveCf
          rw [if_pos hcf, hM1]
          unfold build_bond_cashflows
          rw [if_pos (Or.inr hyr)]
    · rw [if_pos hp]
      simp only [Except.error.injEq, exists_eq', true_iff]
      exact Or.inl (not_lt.mp hp)

/-- Witness for the amended C6 at `cf = [100]`, `price = 50`, `m = 0`. -/
theorem internal_rate_return_validate_m_nonpos_witness :
    internal_rate_return_validate [100] 50 (1/20) 100 1 0 =
      internal_rate_return_validate [100] 50 (1/20) 100 1 1 ∧
    ((∃ e, internal_rate_return_validate [100] 50 (1/20) 100 1 0 = .error e) ↔
      ((50 : ℚ) ≤ 0 ∨ (([100] : List ℚ) = [] ∧ (1 : ℤ) ≤ 0))) :=
  internal_rate_return_validate_m_nonpos [100] 50 (1/20) 100 1 0 (by decide)

/-- C1 counterexample: with `par = 100`, coupon rate `1/10`, one year,
semiannual compounding (`m = 2`) and `price = 100`, the schedule is
`[5, 105]` and the exact per-period root of the solver objective is
`rp = 1/20`; the solver annualizes it to `(21/20)^2 - 1 = 41/400`, but
`price_from_yield` de-annualizes that yield as `y/m`, so the round-trip
misses the price by more than `1/5` — far beyond any solver tolerance. -/
theorem irr_round_trip_fails :
    IsInternalRateReturn (build_bond_cashflows 100 (1/10) 1 2) 100 2 (41/400) ∧
    1/5 < |price_from_yield (build_bond_cashflows 100 (1/10) 1 2) (41/400) 2 - 100| := by
  constructor
  · refine ⟨1/20, by norm_num, ?_, by norm_num⟩
    norm_num [irrObjectivePV, irrObjectiveGo, build_bond_cashflows, List.replicate]
  · have hval : price_from_yield (build_bond_cashflows 100 (1/10) 1 2) (41/400) 2 =
        70564000/707281 := by
      norm_num [price_from_yield, priceFromYieldGo, build_bond_cashflows, List.replicate]
    rw [hval, show (70564000/707281 : ℚ) - 100 = -(164100/707281) by norm_num,
      abs_neg, abs_of_nonneg (by norm_num : (0:ℚ) ≤ 164100/707281)]
    norm_num

/-- Discounting a schedule with the iteratively-updated divisor of
`price_from_yield` agrees with the iteratively-multiplied discount factor of
the solver objective. -/
theorem priceFromYieldGo_eq_irrObjectiveGo (opr : ℚ) (cf : List ℚ) :
    ∀ disc, priceFromYieldGo opr cf disc = irrObjectiveGo opr⁻¹ cf disc⁻¹ := by
  induction cf with
  | nil => intro disc; rfl
  | cons c rest ih =>
      intro disc
      simp only [priceFromYieldGo, irrObjectiveGo]
      rw [ih (disc * opr), mul_inv, div_eq_mul_inv, mul_inv]

/-- C1 amended: for annual compounding (`m = 1`) the annualization
`(1+rp)^m - 1` is the per-period rate itself, and the round-trip through
`price_from_yield` reproduces the price exactly under the ideal-root model
of the solver. -/
theorem irr_round_trip_m_one (cf : List ℚ) (price y : ℚ)
    (h : IsInternalRateReturn cf price 1 y) :
    price_from_yield cf y 1 = price := by
  obtain ⟨rp, hrp, hpv, hy⟩ := h
  have hy1 : y = rp := by rw [hy, zpow_one]; ring
  rw [hy1]
  unfold irrObjectivePV at hpv
  unfold price_from_yield
  rw [show ((1 : ℤ) : ℚ) = 1 by norm_num, div_one]
  rw [priceFromYieldGo_eq_irrObjectiveGo, inv_one, ← one_div]
  exact hpv

/-- Witness for the amended C1 at `cf = [110]`, `price = 100`, `y = 1/10`. -/
theorem irr_round_trip_m_one_witness :
    price_from_yield [110] (1/10) 1 = 100 :=
  irr_round_trip_m_one [110] 100 (1/10)
    ⟨1/10, by norm_num, by norm_num [irrObjectivePV, irrObjectiveGo], by norm_num⟩

/-! ### Claim theorems: option side -/

/-- Integrability of the (unnormalized) standard normal density. -/
theorem gauss_integrable : MeasureTheory.Integrable (fun t : ℝ => Real.exp (-(t ^ 2 / 2))) := by
  have h : (fun t : ℝ => Real.exp (-(t ^ 2 / 2))) = fun t : ℝ => Real.exp (-(1/2) * t ^ 2) := by
    funext t
    congr 1
    ring
  rw [h]
  exact integrable_exp_neg_mul_sq (by norm_num)

/-- Total mass of the unnormalized Gaussian. -/
theorem gauss_total : (∫ t : ℝ, Real.exp (-(t ^ 2 / 2))) = Real.sqrt (2 * Real.pi) := by
  rw [show (fun t : ℝ => Real.exp (-(t ^ 2 / 2))) = fun t : ℝ => Real.exp (-(1/2) * t ^ 2) from by
    funext t
    congr 1
    ring]
  rw [integral_gaussian]
  rw [show Real.pi / (1/2) = 2 * Real.pi by ring]

/-- Reflection identity of the standard normal CDF. -/
theorem Phi_add_Phi_neg (x : ℝ) : Phi x + Phi (-x) = 1 := by
  have hint := gauss_integrable
  have h1 : (∫ t in Set.Iic (-x), Real.exp (-(t ^ 2 / 2))) =
      ∫ t in Set.Ioi x, Real.exp (-(t ^ 2 / 2)) := by
    have h := integral_comp_neg_Iic (-x) (fun t : ℝ => Real.exp (-(t ^ 2 / 2)))
    simp only [neg_sq, neg_neg] at h
    exact h
  unfold Phi
  rw [h1, div_add_div_same,
    intervalIntegral.integral_Iic_add_Ioi hint.integrableOn hint.integrableOn, gauss_total,
    div_self (Real.sqrt_ne_zero'.mpr (by positivity))]

/-- Value of the standard normal CDF at the origin. -/
theorem Phi_zero : Phi 0 = 1/2 := by
  have h := Phi_add_Phi_neg 0
  rw [neg_zero] at h
  linarith

/-- C3 (failing input): at `S = K = 1`, `σ = 1`, `r = -1/2`, `q = 0`, `T = 1`
the `d1` term is `0`; the claimed deltas `e^{-qT}·Φ(d1)` and
`e^{-qT}·(Φ(d1)-1)` are `1/2` and `-1/2`, but the code returns `1` and `0`:
`custom_normal` is a broken density — `std::pow(M_PI*2, 1/2)` integer-divides
the exponent to `0`, and the exponent of the exponential has the wrong sign —
and a density is not the CDF the claim requires in the first place. -/
theorem bs_delta_not_cdf :
    bs_call_delta 1 1 1 (-(1/2)) 0 1 = 1 ∧
    bs_put_delta 1 1 1 (-(1/2)) 0 1 = 0 ∧
    Real.exp (-((0:ℝ) * 1)) * Phi (black_scholes_x 1 1 1 (-(1/2)) 1) = 1/2 ∧
    Real.exp (-((0:ℝ) * 1)) * (Phi (black_scholes_x 1 1 1 (-(1/2)) 1) - 1) = -(1/2) := by
  have hx : black_scholes_x 1 1 1 (-(1/2)) 1 = 0 := by
    unfold black_scholes_x
    norm_num [Real.log_one, Real.sqrt_one]
  have hcn : custom_normal 1 1 1 (-(1/2)) 1 = 1 := by
    unfold custom_normal
    rw [hx]
    norm_num [show ((1:ℤ)/2) = 0 by decide]
  refine ⟨?_, ?_, ?_, ?_⟩
  · unfold bs_call_delta
    rw [hcn]
    norm_num
  · unfold bs_put_delta
    rw [hcn]
    norm_num
  · rw [hx, Phi_zero]
    norm_num
  · rw [hx, Phi_zero]
    norm_num

/-- C10: put-call parity for the closed-form Black-Scholes prices: whenever
both functions pass their validation (`σ` and `T` at or above `1e-9`), the
call and put values satisfy `c - p = S - K·e^{-rT}`, even though the two are
implemented with separate formulas. -/
theorem black_scholes_put_call_parity (S K σ r T : ℝ) (_hS : 0 < S) (_hK : 0 < K)
    (hσ : 1e-9 ≤ σ) (hT : 1e-9 ≤ T) (c p : ℝ)
    (hc : black_scholes_call S K σ r T = .ok c)
    (hp : black_scholes_put S K σ r T = .ok p) :
    c - p = S - K * Real.exp (-(r * T)) := by
  have hcond : ¬ (σ < 1e-9 ∨ T < 1e-9) := by
    push_neg
    exact ⟨hσ, hT⟩
  unfold black_scholes_call at hc
  rw [if_neg hcond] at hc
  unfold black_scholes_put at hp
  rw [if_neg hcond] at hp
  simp only [Except.ok.injEq] at hc hp
  have hd1 : (Real.log (S / K) + (r + 0.5 * (σ * σ)) * T) / (σ * Real.sqrt T) =
      black_scholes_x S K σ r T := by
    unfold black_scholes_x
    congr 1
    ring
  rw [hd1] at hp
  rw [← hc, ← hp]
  have h1 := Phi_add_Phi_neg (black_scholes_x S K σ r T)
  have h2 := Phi_add_Phi_neg (black_scholes_x S K σ r T - σ * Real.sqrt T)
  linear_combination S * h1 - K * Real.exp (-(r * T)) * h2

/-- Witness for C10 at `S = K = 1`, `σ = 1`, `r = 0`, `T = 1`. -/
theorem black_scholes_put_call_parity_witness :
    ∃ c p, black_scholes_call 1 1 1 0 1 = .ok c ∧ black_scholes_put 1 1 1 0 1 = .ok p ∧
      c - p = 1 - 1 * Real.exp (-((0:ℝ) * 1)) := by
  have hcond : ¬ ((1:ℝ) < 1e-9 ∨ (1:ℝ) < 1e-9) := by norm_num
  have hc : black_scholes_call 1 1 1 0 1 =
      .ok (1 * Phi (black_scholes_x 1 1 1 0 1) -
        1 * Real.exp (-((0:ℝ) * 1)) * Phi (black_scholes_x 1 1 1 0 1 - 1 * Real.sqrt 1)) := by
    unfold black_scholes_call
    rw [if_neg hcond]
  have hp : black_scholes_put 1 1 1 0 1 =
      .ok (1 * Real.exp (-((0:ℝ) * 1)) *
          Phi (-((Real.log (1 / 1) + (0 + 0.5 * (1 * 1)) * 1) / (1 * Real.sqrt 1) -
            1 * Real.sqrt 1)) -
        1 * Phi (-((Real.log (1 / 1) + (0 + 0.5 * (1 * 1)) * 1) / (1 * Real.sqrt 1)))) := by
    unfold black_scholes_put
    rw [if_neg hcond]
  exact ⟨_, _, hc, hp,
    black_scholes_put_call_parity 1 1 1 0 1 (by norm_num) (by norm_num) (by norm_num)
      (by norm_num) _ _ hc hp⟩

/-! ### Lattice engine: loop-to-recursion correspondence (C4) -/

/-- Closed form of the iterative terminal-layer loop: node `k` carries
`S * (up * u^k) * (dn / d^k)`. -/
theorem binomial_terminal_eq (S u d : ℝ) : ∀ (n : ℕ) (up dn : ℝ),
    binomial_terminal S u d n up dn =
      List.ofFn (fun k : Fin n => S * (up * u ^ (k : ℕ)) * (dn / d ^ (k : ℕ))) := by
  intro n
  induction n with
  | zero => intro up dn; rfl
  | succ n ih =>
      intro up dn
      rw [binomial_terminal, ih (up * u) (dn / d), List.ofFn_succ]
      congr 1
      · simp
      · congr 1
        funext k
        simp only [Fin.val_succ]
        rw [div_div, ← pow_succ']
        ring

/-- The terminal layer of the tree is the payoff of `S·u^j·d^(steps-j)` at
each node `j`. -/
theorem binomial_tree_setup_eq (S K σ T : ℝ) (steps : ℕ) (pay : ℝ → ℝ → ℝ) :
    binomial_tree_setup S K σ steps T pay =
      List.ofFn (fun j : Fin (steps + 1) =>
        pay K (S * Real.exp (σ * Real.sqrt (T / steps)) ^ (j : ℕ) *
          (1 / Real.exp (σ * Real.sqrt (T / steps))) ^ (steps - (j : ℕ)))) := by
  have hd : (1 / Real.exp (σ * Real.sqrt (T / steps))) ≠ 0 :=
    one_div_ne_zero (Real.exp_pos _).ne'
  simp only [binomial_tree_setup]
  rw [binomial_terminal_eq, List.map_ofFn]
  congr 1
  funext j
  simp only [Function.comp_apply, one_mul]
  congr 1
  rw [pow_sub₀ _ hd (Fin.is_le j)]
  ring

/-- Splitting off the head of an index-function list. -/
theorem ofFn_shift (v : ℕ → ℝ) (n : ℕ) :
    List.ofFn (fun k : Fin (n + 1) => v (k : ℕ)) =
      v 0 :: List.ofFn (fun k : Fin n => v ((k : ℕ) + 1)) := by
  rw [List.ofFn_succ]
  congr 1

/-- One imperative backward pass computes `lattice_step` at every index. -/
theorem backstep_ofFn (p disc : ℝ) : ∀ (n : ℕ) (v : ℕ → ℝ),
    backstep p disc (List.ofFn (fun k : Fin (n + 1) => v (k : ℕ))) =
      List.ofFn (fun k : Fin n => lattice_step p disc v (k : ℕ)) := by
  intro n
  induction n with
  | zero =>
      intro v
      simp [backstep, List.ofFn_succ]
  | succ n ih =>
      intro v
      rw [ofFn_shift v, ofFn_shift (fun j => v (j + 1)) n, backstep,
        ← ofFn_shift (fun j => v (j + 1)) n, ih (fun j => v (j + 1)),
        ofFn_shift (lattice_step p disc v) n]
      congr 1

/-- Iterated backward passes starting from `k+1` nodes collapse to the root
value of the `k`-fold spec recurrence. -/
theorem backstep_iterate_headD (p disc : ℝ) : ∀ (k : ℕ) (v : ℕ → ℝ),
    ((backstep p disc)^[k] (List.ofFn (fun j : Fin (k + 1) => v (j : ℕ)))).headD 0 =
      ((lattice_step p disc)^[k] v) 0 := by
  intro k
  induction k with
  | zero => intro v; simp
  | succ k ih =>
      intro v
      rw [Function.iterate_succ_apply, backstep_ofFn p disc (k + 1) v,
        ih (lattice_step p disc v), ← Function.iterate_succ_apply]

/-- C4: for every `steps ≥ 1`, `binomial_eu_option` computes exactly the
specified algorithm: terminal node `j` is `S·u^j·d^(steps-j)` with
`u = e^(σ√(T/steps))`, `d = 1/u`, the payoff rule is applied to the terminal
vector, the backward recurrence
`value[j] := disc·(p·value[j+1] + (1-p)·value[j])` is applied `steps` times
with `p = (e^(r·dt) - d)/(u - d)` and `disc = e^(-r·dt)`, and the price is
the fully collapsed root value. -/
theorem binomial_eu_option_is_spec (S K σ r T : ℝ) (steps : ℕ) (_hsteps : 1 ≤ steps)
    (pay : ℝ → ℝ → ℝ) :
    binomial_eu_option S K σ r steps T pay = binomial_eu_spec S K σ r steps T pay := by
  simp only [binomial_eu_option, binomial_eu_spec]
  rw [binomial_tree_setup_eq]
  exact backstep_iterate_headD _ _ steps
    (fun i => pay K (S * Real.exp (σ * Real.sqrt (T / steps)) ^ i *
      (1 / Real.exp (σ * Real.sqrt (T / steps))) ^ (steps - i)))

/-- Witness for C4 at `S = 100`, `K = 90`, `σ = 1`, `r = 0`, `steps = 1`,
`T = 2` with the call payoff. -/
theorem binomial_eu_option_is_spec_witness :
    binomial_eu_option 100 90 1 0 1 2 call_payoff = binomial_eu_spec 100 90 1 0 1 2 call_payoff :=
  binomial_eu_option_is_spec 100 90 1 0 2 1 (by decide) call_payoff

/-! ### American versus European puts (C5) -/

/-- With a per-step weight `p ∈ [0,1]` and a nonnegative discount factor, an
American backward pass dominates a European backward pass pointwise whenever
its input layer does. -/
theorem backstep_le_uslevel (S u d p disc K : ℝ) (pay : ℝ → ℝ → ℝ)
    (hp0 : 0 ≤ p) (hp1 : p ≤ 1) (hdisc : 0 ≤ disc) :
    ∀ {l l2 : List ℝ}, List.Forall₂ (· ≤ ·) l l2 → ∀ (i j : ℕ),
      List.Forall₂ (· ≤ ·) (backstep p disc l) (uslevel S u d p disc K pay i j l2) := by
  intro l l2 h
  induction h with
  | nil => intro i j; simp [backstep, uslevel]
  | @cons a b as bs hab hrest ih =>
      intro i j
      cases hrest with
      | nil => simp [backstep, uslevel]
      | @cons a2 b2 as2 bs2 hab2 hrest2 =>
          rw [backstep, uslevel]
          constructor
          · refine le_max_of_le_left ?_
            apply mul_le_mul_of_nonneg_left _ hdisc
            have h1 : p * a2 ≤ p * b2 := mul_le_mul_of_nonneg_left hab2 hp0
            have h2 : (1 - p) * a ≤ (1 - p) * b :=
              mul_le_mul_of_nonneg_left hab (by linarith)
            linarith
          · exact ih i (j + 1)

/-- The full American backward induction dominates the European one layer by
layer. -/
theorem iterate_backstep_le_usback (S u d p disc K : ℝ) (pay : ℝ → ℝ → ℝ)
    (hp0 : 0 ≤ p) (hp1 : p ≤ 1) (hdisc : 0 ≤ disc) :
    ∀ (n : ℕ) {l l2 : List ℝ}, List.Forall₂ (· ≤ ·) l l2 →
      List.Forall₂ (· ≤ ·) ((backstep p disc)^[n] l)
        (usback S u d p disc K pay n l2) := by
  intro n
  induction n with
  | zero =>
      intro l l2 h
      simpa [usback] using h
  | succ n ih =>
      intro l l2 h
      rw [Function.iterate_succ_apply, usback]
      exact ih (backstep_le_uslevel S u d p disc K pay hp0 hp1 hdisc h n 0)

/-- Pointwise domination of layers is inherited by the root value. -/
theorem headD_le_of_forall₂ {l l2 : List ℝ} (h : List.Forall₂ (· ≤ ·) l l2) :
    l.headD 0 ≤ l2.headD 0 := by
  cases h with
  | nil => exact le_refl 0
  | cons hab _ => simpa using hab

/-- C5 amended: the American binomial put price dominates the European one
whenever the risk-neutral weight `p = (e^(r·dt) - d)/(u - d)` lies in `[0,1]`,
i.e. `d ≤ e^(r·dt) ≤ u`. -/
theorem binomial_us_ge_eu_put (S K σ r T : ℝ) (steps : ℕ) (hsteps : 1 ≤ steps)
    (hσ : 0 < σ) (hT : 0 < T)
    (hlo : 1 / Real.exp (σ * Real.sqrt (T / (steps : ℝ))) ≤ Real.exp (r * (T / (steps : ℝ))))
    (hhi : Real.exp (r * (T / (steps : ℝ))) ≤ Real.exp (σ * Real.sqrt (T / (steps : ℝ)))) :
    binomial_eu_option S K σ r steps T put_payoff ≤
      binomial_us_option S K σ r steps T put_payoff := by
  have hsteps0 : (0 : ℝ) < (steps : ℝ) := by
    have : 0 < steps := hsteps
    exact_mod_cast this
  have hdt : 0 < T / (steps : ℝ) := div_pos hT hsteps0
  have hx : 0 < σ * Real.sqrt (T / (steps : ℝ)) :=
    mul_pos hσ (Real.sqrt_pos.mpr hdt)
  have hupos : 0 < Real.exp (σ * Real.sqrt (T / (steps : ℝ))) := Real.exp_pos _
  have hu1 : 1 < Real.exp (σ * Real.sqrt (T / (steps : ℝ))) := by
    rw [show (1:ℝ) = Real.exp 0 from (Real.exp_zero).symm]
    exact Real.exp_lt_exp.mpr hx
  have hdlt : 1 / Real.exp (σ * Real.sqrt (T / (steps : ℝ))) < 1 :=
    (div_lt_one hupos).mpr hu1
  have hud : 0 < Real.exp (σ * Real.sqrt (T / (steps : ℝ))) -
      1 / Real.exp (σ * Real.sqrt (T / (steps : ℝ))) := by linarith
  have hp0 : 0 ≤ (Real.exp (r * (T / (steps : ℝ))) -
        1 / Real.exp (σ * Real.sqrt (T / (steps : ℝ)))) /
      (Real.exp (σ * Real.sqrt (T / (steps : ℝ))) -
        1 / Real.exp (σ * Real.sqrt (T / (steps : ℝ)))) :=
    div_nonneg (by linarith) hud.le
  have hp1 : (Real.exp (r * (T / (steps : ℝ))) -
        1 / Real.exp (σ * Real.sqrt (T / (steps : ℝ)))) /
      (Real.exp (σ * Real.sqrt (T / (steps : ℝ))) -
        1 / Real.exp (σ * Real.sqrt (T / (steps : ℝ)))) ≤ 1 := by
    rw [div_le_one hud]
    linarith
  have hd0 : 0 ≤ Real.exp (-(r * (T / (steps : ℝ)))) := (Real.exp_pos _).le
  simp only [binomial_eu_option, binomial_us_option]
  exact headD_le_of_forall₂
    (iterate_backstep_le_usback _ _ _ _ _ _ _ hp0 hp1 hd0 steps (List.forall₂_refl _))

/-- Value of the exponential of the up-move argument in the concrete C5
scenario `σ = (log 2)/2`, `T = 8`, `steps = 2`: the up factor is exactly 2. -/
theorem exp_u_case : Real.exp (Real.log 2 / 2 * Real.sqrt ((8:ℝ) / ((2:ℕ):ℝ))) = 2 := by
  have hsq : Real.sqrt ((8:ℝ) / ((2:ℕ):ℝ)) = 2 := by
    rw [show (8:ℝ) / ((2:ℕ):ℝ) = 2 ^ 2 by push_cast; norm_num]
    exact Real.sqrt_sq (by norm_num)
  rw [hsq, show Real.log 2 / 2 * 2 = Real.log 2 by ring, Real.exp_log (by norm_num)]

/-- Value of the exponential of the rate argument in the concrete C5 scenario
`r = 3·(log 2)/4`, `T = 8`, `steps = 2`: the per-step growth is exactly 8. -/
theorem exp_r_case : Real.exp (3 * Real.log 2 / 4 * ((8:ℝ) / ((2:ℕ):ℝ))) = 8 := by
  rw [show (8:ℝ) / ((2:ℕ):ℝ) = 4 by push_cast; norm_num,
    show 3 * Real.log 2 / 4 * 4 = (3:ℕ) * Real.log 2 by push_cast; ring,
    ← Real.log_pow, Real.exp_log (by norm_num)]
  norm_num

/-- Per-step discount factor in the concrete C5 scenario: exactly 1/8. -/
theorem exp_disc_case :
    Real.exp (-(3 * Real.log 2 / 4 * ((8:ℝ) / ((2:ℕ):ℝ)))) = 1/8 := by
  rw [Real.exp_neg, exp_r_case]
  norm_num

/-- Terminal option values in the concrete C5 scenario: spots `1, 4, 16`,
put payoffs `[2, 0, 0]`. -/
theorem setup_case :
    binomial_tree_setup 4 3 (Real.log 2 / 2) 2 8 put_payoff = [2, 0, 0] := by
  rw [binomial_tree_setup_eq]
  rw [exp_u_case]
  simp only [List.ofFn_succ, List.ofFn_zero, Fin.val_zero, Fin.val_succ]
  norm_num [put_payoff, max_eq_left, max_eq_right]

/-- Two backward passes, unfolded. -/
theorem iterate_two (f : List ℝ → List ℝ) (x : List ℝ) : f^[2] x = f (f x) := rfl

/-- Two American levels, unfolded. -/
theorem usback_two (S u d p disc K : ℝ) (pay : ℝ → ℝ → ℝ) (l : List ℝ) :
    usback S u d p disc K pay 2 l =
      uslevel S u d p disc K pay 0 0 (uslevel S u d p disc K pay 1 0 l) := rfl

/-- European price in the concrete C5 scenario is 1/2. -/
theorem eu_case :
    binomial_eu_option 4 3 (Real.log 2 / 2) (3 * Real.log 2 / 4) 2 8 put_payoff = 1/2 := by
  simp only [binomial_eu_option]
  rw [setup_case, exp_u_case, exp_r_case, exp_disc_case, iterate_two]
  rw [backstep, backstep, backstep]
  norm_num [backstep]

/-- American price in the concrete C5 scenario is 0: the inflated weight
`p = 5` makes the down-node early exercise poison the root continuation. -/
theorem us_case :
    binomial_us_option 4 3 (Real.log 2 / 2) (3 * Real.log 2 / 4) 2 8 put_payoff = 0 := by
  simp only [binomial_us_option]
  rw [setup_case, exp_u_case, exp_r_case, exp_disc_case, usback_two]
  rw [uslevel, uslevel, uslevel]
  norm_num [uslevel, put_payoff, max_eq_left, max_eq_right]

/-- C5 counterexample: at `S = 4`, `K = 3`, `σ = (log 2)/2`,
`r = 3·(log 2)/4`, `steps = 2`, `T = 8` with the put payoff, the American
binomial price (0) is strictly below the European one (1/2): the claim fails
when the risk-neutral weight exceeds 1 (here `p = 5`). -/
theorem binomial_us_lt_eu_put :
    binomial_us_option 4 3 (Real.log 2 / 2) (3 * Real.log 2 / 4) 2 8 put_payoff <
      binomial_eu_option 4 3 (Real.log 2 / 2) (3 * Real.log 2 / 4) 2 8 put_payoff := by
  rw [us_case, eu_case]
  norm_num

/-- Witness for the amended C5 at `S = 4`, `K = 3`, `σ = (log 2)/2`, `r = 0`,
`steps = 2`, `T = 8`. -/
theorem binomial_us_ge_eu_put_witness :
    binomial_eu_option 4 3 (Real.log 2 / 2) 0 2 8 put_payoff ≤
      binomial_us_option 4 3 (Real.log 2 / 2) 0 2 8 put_payoff := by
  have hu : Real.exp (Real.log 2 / 2 * Real.sqrt ((8:ℝ) / ((2:ℕ):ℝ))) = 2 := exp_u_case
  refine binomial_us_ge_eu_put 4 3 (Real.log 2 / 2) 0 8 2 (by decide)
    (by positivity) (by norm_num) ?_ ?_
  · rw [hu, show (0:ℝ) * ((8:ℝ) / ((2:ℕ):ℝ)) = 0 by ring, Real.exp_zero]
    norm_num
  · rw [hu, show (0:ℝ) * ((8:ℝ) / ((2:ℕ):ℝ)) = 0 by ring, Real.exp_zero]
    norm_num

end pyfi
